import Mathlib

/-!
Verification of the NFT-marketplace metadata retrieval pipeline.

We give a shallow embedding of the TypeScript retrieval pipeline
(`getNFTsFromContract`, `fetchNFTDataWithRetry`, `fetchNFTData`,
`decodeDataURI`, `getNFTById` and the sibling `ensureEncodedDataURI`
from the grid component) and prove the specified properties about it.

Strings are modelled as `List Char` (JS strings at the level of Unicode
scalar values; none of the modelled code constructs lone surrogates).
JavaScript builtins used by the source (`atob`, `decodeURIComponent`,
`encodeURIComponent`, `String.prototype.split`, `String.prototype.includes`,
regular-expression test `/%[0-9A-Fa-f]{2}/`) are modelled by executable
Lean functions following their ECMAScript / WHATWG semantics.  `JSON.parse`
together with the unchecked TypeScript cast to `NFTMetadata` is treated as
a parameter of the model (a function `List Char → Option NFTMetadata`,
`none` modelling a thrown parse error), since its semantics is external
to the repository.  Thrown exceptions are modelled with `Except`.
-/

namespace NFTMarket

/-- Hexadecimal digit test, the character class `[0-9A-Fa-f]` of the
regular expression `/%[0-9A-Fa-f]{2}/` used by `decodeDataURI` and
`ensureEncodedDataURI`. -/
def isHexDigitJS (c : Char) : Bool :=
  (48 ≤ c.toNat && c.toNat ≤ 57) || (65 ≤ c.toNat && c.toNat ≤ 70) ||
    (97 ≤ c.toNat && c.toNat ≤ 102)

/-- Value of a hexadecimal digit character (both cases), `none` otherwise. -/
def hexVal (c : Char) : Option Nat :=
  if 48 ≤ c.toNat ∧ c.toNat ≤ 57 then some (c.toNat - 48)
  else if 65 ≤ c.toNat ∧ c.toNat ≤ 70 then some (c.toNat - 55)
  else if 97 ≤ c.toNat ∧ c.toNat ≤ 102 then some (c.toNat - 87)
  else none

/-- Upper-case hexadecimal digit character for `n < 16`, as produced by
`encodeURIComponent` escapes. -/
def hexDigitChar (n : Nat) : Char :=
  if n < 10 then Char.ofNat (48 + n) else Char.ofNat (55 + n)

/-- The test `/%[0-9A-Fa-f]{2}/.test s`: does `s` contain a `%` followed by
two hexadecimal digits? -/
def hasPctEsc : List Char → Bool
  | [] => false
  | c :: cs =>
    ((c == '%') && (match cs with
      | a :: b :: _ => isHexDigitJS a && isHexDigitJS b
      | _ => false)) || hasPctEsc cs

/-- A percent escape `%XY` for the byte `b < 256`, upper-case hex, as
produced by `encodeURIComponent`. -/
def pctByte (b : Nat) : List Char :=
  ['%', hexDigitChar (b / 16), hexDigitChar (b % 16)]

/-- The UTF-8 byte sequence of the Unicode scalar value `n`. -/
def utf8ByteVals (n : Nat) : List Nat :=
  if n < 0x80 then [n]
  else if n < 0x800 then [0xC0 + n / 64, 0x80 + n % 64]
  else if n < 0x10000 then [0xE0 + n / 4096, 0x80 + (n / 64) % 64, 0x80 + n % 64]
  else [0xF0 + n / 262144, 0x80 + (n / 4096) % 64, 0x80 + (n / 64) % 64, 0x80 + n % 64]

/-- The UTF-8 percent escaping of the Unicode scalar value `n`, as performed
by `encodeURIComponent` on characters outside its unescaped set. -/
def utf8PctBytes (n : Nat) : List Char :=
  ((utf8ByteVals n).map pctByte).flatten

/-- The unescaped set of `encodeURIComponent`:
`A–Z a–z 0–9 - _ . ! ~ * ' ( )`. -/
def isUnreservedJS (c : Char) : Bool :=
  c.isAlphanum || c == '-' || c == '_' || c == '.' || c == '!' || c == '~' ||
    c == '*' || c == '\'' || c == '(' || c == ')'

/-- Encoding of one character by `encodeURIComponent`. -/
def encChar (c : Char) : List Char :=
  if isUnreservedJS c then [c] else utf8PctBytes c.toNat

/-- ECMAScript `encodeURIComponent` over scalar values. -/
def encodeURIComponent : List Char → List Char
  | [] => []
  | c :: cs => encChar c ++ encodeURIComponent cs

/-- Cons a character onto the result of a decoding step, propagating errors. -/
def consE (c : Char) : Except Unit (List Char) → Except Unit (List Char)
  | .ok r => .ok (c :: r)
  | .error e => .error e

/-- First phase of ECMAScript `decodeURIComponent`: each `%XY` escape is
read as the byte `XY` (a `Sum.inr`); a `%` not followed by two hexadecimal
digits throws a `URIError`; every other character passes through unchanged
(a `Sum.inl`). -/
def lexPct : List Char → Except Unit (List (Sum Char Nat))
  | [] => .ok []
  | c :: rest =>
    if c = '%' then
      match rest with
      | a :: b :: rest2 =>
        match hexVal a, hexVal b with
        | some x, some y =>
          match lexPct rest2 with
          | .ok toks => .ok (Sum.inr (16 * x + y) :: toks)
          | .error e => .error e
        | _, _ => .error ()
      | _ => .error ()
    else
      match lexPct rest with
      | .ok toks => .ok (Sum.inl c :: toks)
      | .error e => .error e

/-- Is `b` a UTF-8 continuation byte? -/
def contB (b : Nat) : Bool := decide (0x80 ≤ b ∧ b < 0xC0)

/-- Second phase of ECMAScript `decodeURIComponent`, as a state machine over
the token string: runs of escape bytes are decoded as strict UTF-8 (overlong
encodings, surrogate code points, out-of-range values and ill-formed
sequences throw a `URIError`, modelled as `Except.error ()`); pass-through
characters are kept as they are.  A state `some (k, v, lo)` records that `k`
continuation bytes are still expected, `v` is the scalar value accumulated
so far and `lo` is the least value the finished sequence may denote (the
overlong check). -/
def groupGo : Option (Nat × Nat × Nat) → List (Sum Char Nat) → Except Unit (List Char)
  | none, [] => .ok []
  | some _, [] => .error ()
  | none, Sum.inl c :: rest => consE c (groupGo none rest)
  | some _, Sum.inl _ :: _ => .error ()
  | none, Sum.inr b :: rest =>
    if b < 0x80 then consE (Char.ofNat b) (groupGo none rest)
    else if b < 0xC0 then .error ()
    else if b < 0xE0 then groupGo (some (1, b - 0xC0, 0x80)) rest
    else if b < 0xF0 then groupGo (some (2, b - 0xE0, 0x800)) rest
    else if b < 0xF8 then groupGo (some (3, b - 0xF0, 0x10000)) rest
    else .error ()
  | some (k, v, lo), Sum.inr b :: rest =>
    if contB b then
      if k = 1 then
        if lo ≤ v * 64 + (b - 0x80) ∧ v * 64 + (b - 0x80) < 0x110000 ∧
            ¬(0xD800 ≤ v * 64 + (b - 0x80) ∧ v * 64 + (b - 0x80) < 0xE000) then
          consE (Char.ofNat (v * 64 + (b - 0x80))) (groupGo none rest)
        else .error ()
      else groupGo (some (k - 1, v * 64 + (b - 0x80), lo)) rest
    else .error ()

/-- Decoding of a token string: run the state machine from the idle state. -/
def groupTokens (toks : List (Sum Char Nat)) : Except Unit (List Char) :=
  groupGo none toks

/-- ECMAScript `decodeURIComponent` over scalar values, the composition of
the two phases. -/
def decodeChars (l : List Char) : Except Unit (List Char) :=
  match lexPct l with
  | .ok toks => groupTokens toks
  | .error e => .error e

theorem hexVal_hexDigitChar : ∀ x, x < 16 → hexVal (hexDigitChar x) = some x := by
  decide

theorem isHexDigitJS_hexDigitChar : ∀ x, x < 16 → isHexDigitJS (hexDigitChar x) = true := by
  decide

theorem pctByte_append (b : Nat) (cs : List Char) :
    pctByte b ++ cs = '%' :: hexDigitChar (b / 16) :: hexDigitChar (b % 16) :: cs := rfl

theorem lexPct_cons (c : Char) (rest : List Char) :
    lexPct (c :: rest) =
      if c = '%' then
        match rest with
        | a :: b :: rest2 =>
          match hexVal a, hexVal b with
          | some x, some y =>
            match lexPct rest2 with
            | .ok toks => .ok (Sum.inr (16 * x + y) :: toks)
            | .error e => .error e
          | _, _ => .error ()
        | _ => .error ()
      else
        match lexPct rest with
        | .ok toks => .ok (Sum.inl c :: toks)
        | .error e => .error e := by
  rw [lexPct.eq_def]

theorem lexPct_cons_ne (c : Char) (hc : ¬c = '%') (rest : List Char) :
    lexPct (c :: rest) = (Sum.inl c :: ·) <$> lexPct rest := by
  rw [lexPct_cons, if_neg hc]
  cases lexPct rest <;> rfl

theorem lexPct_pct (b : Nat) (hb : b < 256) (rest : List Char) :
    lexPct (pctByte b ++ rest) = (Sum.inr b :: ·) <$> lexPct rest := by
  rw [pctByte_append, lexPct_cons, if_pos rfl]
  simp only [hexVal_hexDigitChar _ (show b / 16 < 16 by omega),
    hexVal_hexDigitChar _ (show b % 16 < 16 by omega)]
  have hv : 16 * (b / 16) + b % 16 = b := by omega
  rw [hv]
  cases lexPct rest <;> rfl

theorem lexPct_pctBytes (bs : List Nat) (hbs : ∀ b ∈ bs, b < 256) (rest : List Char) :
    lexPct ((bs.map pctByte).flatten ++ rest) = (bs.map Sum.inr ++ ·) <$> lexPct rest := by
  induction bs with
  | nil =>
    show lexPct rest = _
    cases lexPct rest <;> rfl
  | cons b bs ih =>
    have hb : b < 256 := hbs b (List.mem_cons_self b bs)
    have hbs' : ∀ x ∈ bs, x < 256 := fun x hx => hbs x (List.mem_cons_of_mem b hx)
    show lexPct (pctByte b ++ ((bs.map pctByte).flatten ++ rest)) = _
    rw [lexPct_pct b hb, ih hbs']
    cases lexPct rest <;> rfl

/-- Grouping tokens for the tokens of one encoded character. -/
def encTokens (c : Char) : List (Sum Char Nat) :=
  if isUnreservedJS c then [Sum.inl c] else (utf8ByteVals c.toNat).map Sum.inr

theorem utf8ByteVals_lt_256 (n : Nat) (hn : n < 0x110000) :
    ∀ b ∈ utf8ByteVals n, b < 256 := by
  intro b hb
  rw [utf8ByteVals] at hb
  split at hb
  · simp at hb; omega
  · split at hb
    · simp at hb
      rcases hb with h | h <;> omega
    · split at hb
      · simp at hb
        rcases hb with h | h | h <;> omega
      · simp at hb
        rcases hb with h | h | h | h <;> omega

theorem char_toNat_valid (c : Char) :
    c.toNat < 0xD800 ∨ (0xE000 ≤ c.toNat ∧ c.toNat < 0x110000) := by
  have h := c.valid
  have he : c.toNat = c.val.toNat := rfl
  rcases h with h | ⟨h1, h2⟩
  · left; omega
  · right; omega

theorem isUnreservedJS_ne_pct {c : Char} (h : isUnreservedJS c = true) : ¬c = '%' := by
  intro hc
  subst hc
  simp [isUnreservedJS, Char.isAlphanum, Char.isAlpha, Char.isUpper, Char.isLower,
    Char.isDigit] at h

theorem lexPct_encChar (c : Char) (rest : List Char) :
    lexPct (encChar c ++ rest) = (encTokens c ++ ·) <$> lexPct rest := by
  rw [encChar, encTokens]
  by_cases hu : isUnreservedJS c = true
  · rw [if_pos hu, if_pos hu]
    simp only [List.cons_append, List.nil_append]
    rw [lexPct_cons_ne c (isUnreservedJS_ne_pct hu)]
  · rw [if_neg hu, if_neg hu, utf8PctBytes]
    have hval : c.toNat < 0x110000 := by
      rcases char_toNat_valid c with h | ⟨h1, h2⟩ <;> omega
    exact lexPct_pctBytes _ (utf8ByteVals_lt_256 _ hval) rest

theorem groupGo_none_inl (c : Char) (rest : List (Sum Char Nat)) :
    groupGo none (Sum.inl c :: rest) = consE c (groupGo none rest) := rfl

theorem groupGo_none_inr (b : Nat) (rest : List (Sum Char Nat)) :
    groupGo none (Sum.inr b :: rest) =
      if b < 0x80 then consE (Char.ofNat b) (groupGo none rest)
      else if b < 0xC0 then .error ()
      else if b < 0xE0 then groupGo (some (1, b - 0xC0, 0x80)) rest
      else if b < 0xF0 then groupGo (some (2, b - 0xE0, 0x800)) rest
      else if b < 0xF8 then groupGo (some (3, b - 0xF0, 0x10000)) rest
      else .error () := rfl

theorem groupGo_some_inr (k v lo b : Nat) (rest : List (Sum Char Nat)) :
    groupGo (some (k, v, lo)) (Sum.inr b :: rest) =
      if contB b then
        if k = 1 then
          if lo ≤ v * 64 + (b - 0x80) ∧ v * 64 + (b - 0x80) < 0x110000 ∧
              ¬(0xD800 ≤ v * 64 + (b - 0x80) ∧ v * 64 + (b - 0x80) < 0xE000) then
            consE (Char.ofNat (v * 64 + (b - 0x80))) (groupGo none rest)
          else .error ()
        else groupGo (some (k - 1, v * 64 + (b - 0x80), lo)) rest
      else .error () := rfl

theorem contB_of (b : Nat) (h1 : 0x80 ≤ b) (h2 : b < 0xC0) : contB b = true := by
  simp only [contB, decide_eq_true_eq]
  exact ⟨h1, h2⟩

theorem groupGo_encTokens (c : Char) (toks : List (Sum Char Nat)) :
    groupGo none (encTokens c ++ toks) = consE c (groupGo none toks) := by
  rw [encTokens]
  by_cases hu : isUnreservedJS c = true
  · rw [if_pos hu]
    rfl
  · rw [if_neg hu]
    have hval := char_toNat_valid c
    rw [utf8ByteVals]
    by_cases h1 : c.toNat < 0x80
    · rw [if_pos h1]
      simp only [List.map_cons, List.map_nil, List.cons_append, List.nil_append]
      rw [groupGo_none_inr, if_pos h1, Char.ofNat_toNat]
    · rw [if_neg h1]
      by_cases h2 : c.toNat < 0x800
      · rw [if_pos h2]
        simp only [List.map_cons, List.map_nil, List.cons_append, List.nil_append]
        rw [groupGo_none_inr, if_neg (by omega), if_neg (by omega), if_pos (by omega),
          groupGo_some_inr, if_pos (contB_of _ (by omega) (by omega)), if_pos rfl]
        have hv : (0xC0 + c.toNat / 64 - 0xC0) * 64 + (0x80 + c.toNat % 64 - 0x80)
            = c.toNat := by omega
        rw [hv, if_pos ⟨by omega, by omega, by omega⟩, Char.ofNat_toNat]
      · rw [if_neg h2]
        by_cases h3 : c.toNat < 0x10000
        · rw [if_pos h3]
          simp only [List.map_cons, List.map_nil, List.cons_append, List.nil_append]
          rw [groupGo_none_inr, if_neg (by omega), if_neg (by omega), if_neg (by omega),
            if_pos (by omega),
            groupGo_some_inr, if_pos (contB_of _ (by omega) (by omega)), if_neg (by omega)]
          rw [show (2 : Nat) - 1 = 1 from rfl]
          have hv2 : (0xE0 + c.toNat / 4096 - 0xE0) * 64 + (0x80 + c.toNat / 64 % 64 - 0x80)
              = c.toNat / 64 := by omega
          rw [hv2, groupGo_some_inr, if_pos (contB_of _ (by omega) (by omega)), if_pos rfl]
          have hv3 : c.toNat / 64 * 64 + (0x80 + c.toNat % 64 - 0x80) = c.toNat := by omega
          rw [hv3, if_pos ⟨by omega, by rcases hval with h | h <;> omega, by
            rcases hval with h | h <;> omega⟩, Char.ofNat_toNat]
        · rw [if_neg h3]
          simp only [List.map_cons, List.map_nil, List.cons_append, List.nil_append]
          have h4 : c.toNat < 0x110000 := by rcases hval with h | h <;> omega
          rw [groupGo_none_inr, if_neg (by omega), if_neg (by omega), if_neg (by omega),
            if_neg (by omega), if_pos (by omega),
            groupGo_some_inr, if_pos (contB_of _ (by omega) (by omega)), if_neg (by omega)]
          rw [show (3 : Nat) - 1 = 2 from rfl]
          have hv2 : (0xF0 + c.toNat / 262144 - 0xF0) * 64 +
              (0x80 + c.toNat / 4096 % 64 - 0x80) = c.toNat / 4096 := by omega
          rw [hv2, groupGo_some_inr, if_pos (contB_of _ (by omega) (by omega)),
            if_neg (by omega)]
          rw [show (2 : Nat) - 1 = 1 from rfl]
          have hv3 : c.toNat / 4096 * 64 + (0x80 + c.toNat / 64 % 64 - 0x80)
              = c.toNat / 64 := by omega
          rw [hv3, groupGo_some_inr, if_pos (contB_of _ (by omega) (by omega)), if_pos rfl]
          have hv4 : c.toNat / 64 * 64 + (0x80 + c.toNat % 64 - 0x80) = c.toNat := by omega
          rw [hv4, if_pos ⟨by omega, by omega, by omega⟩, Char.ofNat_toNat]

/-- The token string of a fully encoded string. -/
def encTokensAll : List Char → List (Sum Char Nat)
  | [] => []
  | c :: cs => encTokens c ++ encTokensAll cs

theorem lexPct_encodeURIComponent (p : List Char) :
    lexPct (encodeURIComponent p) = .ok (encTokensAll p) := by
  induction p with
  | nil => rfl
  | cons c cs ih =>
    rw [encodeURIComponent, lexPct_encChar, ih]
    rfl

theorem groupTokens_encTokensAll (p : List Char) :
    groupTokens (encTokensAll p) = .ok p := by
  induction p with
  | nil => rfl
  | cons c cs ih =>
    rw [encTokensAll]
    show groupGo none (encTokens c ++ encTokensAll cs) = _
    rw [groupGo_encTokens]
    show consE c (groupTokens (encTokensAll cs)) = _
    rw [ih]
    rfl

/-- `decodeURIComponent` is a left inverse of `encodeURIComponent`. -/
theorem decodeChars_encodeURIComponent (p : List Char) :
    decodeChars (encodeURIComponent p) = .ok p := by
  rw [decodeChars, lexPct_encodeURIComponent]
  show groupTokens (encTokensAll p) = .ok p
  exact groupTokens_encTokensAll p

theorem hasPctEsc_cons (c : Char) (cs : List Char) :
    hasPctEsc (c :: cs) =
      (((c == '%') && (match cs with
        | a :: b :: _ => isHexDigitJS a && isHexDigitJS b
        | _ => false)) || hasPctEsc cs) := by
  rw [hasPctEsc.eq_def]

theorem hasPctEsc_cons_of (c : Char) (cs : List Char) (h : hasPctEsc cs = true) :
    hasPctEsc (c :: cs) = true := by
  rw [hasPctEsc_cons, h, Bool.or_true]

theorem hasPctEsc_utf8 (n : Nat) (hn : n < 0x110000) (t : List Char) :
    hasPctEsc (utf8PctBytes n ++ t) = true := by
  have hhex : ∀ b : Nat, b < 256 → ∀ r : List Char,
      hasPctEsc (pctByte b ++ r) = true := by
    intro b hb r
    rw [pctByte_append, hasPctEsc_cons]
    simp only [beq_self_eq_true, Bool.true_and,
      isHexDigitJS_hexDigitChar _ (show b / 16 < 16 by omega),
      isHexDigitJS_hexDigitChar _ (show b % 16 < 16 by omega)]
    rfl
  rw [utf8PctBytes, utf8ByteVals]
  by_cases h1 : n < 0x80
  · rw [if_pos h1]
    exact hhex n (by omega) t
  · rw [if_neg h1]
    by_cases h2 : n < 0x800
    · rw [if_pos h2]
      show hasPctEsc (pctByte (0xC0 + n / 64) ++ _) = true
      exact hhex _ (by omega) _
    · rw [if_neg h2]
      by_cases h3 : n < 0x10000
      · rw [if_pos h3]
        show hasPctEsc (pctByte (0xE0 + n / 4096) ++ _) = true
        exact hhex _ (by omega) _
      · rw [if_neg h3]
        show hasPctEsc (pctByte (0xF0 + n / 262144) ++ _) = true
        exact hhex _ (by omega) _

/-- If the encoded string shows no `%XX` escape, nothing was escaped and the
encoding is the identity. -/
theorem encodeURIComponent_eq_self (p : List Char)
    (h : hasPctEsc (encodeURIComponent p) = false) : encodeURIComponent p = p := by
  induction p with
  | nil => rfl
  | cons c cs ih =>
    rw [encodeURIComponent] at h ⊢
    by_cases hu : isUnreservedJS c = true
    · rw [encChar, if_pos hu] at h ⊢
      simp only [List.cons_append, List.nil_append] at h ⊢
      rw [hasPctEsc_cons] at h
      have h2 : hasPctEsc (encodeURIComponent cs) = false := by
        cases hh : hasPctEsc (encodeURIComponent cs)
        · rfl
        · rw [hh, Bool.or_true] at h
          exact absurd h (by simp)
      rw [ih h2]
    · rw [encChar, if_neg hu] at h
      have hval : c.toNat < 0x110000 := by
        rcases char_toNat_valid c with hh | ⟨hh1, hh2⟩ <;> omega
      rw [hasPctEsc_utf8 c.toNat hval] at h
      exact absurd h (by simp)

/-- Characters an `encodeURIComponent` result is made of. -/
theorem mem_encodeURIComponent (p : List Char) (x : Char)
    (hx : x ∈ encodeURIComponent p) :
    isUnreservedJS x = true ∨ x = '%' ∨ ∃ d, d < 16 ∧ x = hexDigitChar d := by
  induction p with
  | nil => exact absurd hx (by simp [encodeURIComponent])
  | cons c cs ih =>
    rw [encodeURIComponent, List.mem_append] at hx
    rcases hx with hx | hx
    · rw [encChar] at hx
      by_cases hu : isUnreservedJS c = true
      · rw [if_pos hu] at hx
        simp only [List.mem_singleton] at hx
        subst hx
        exact Or.inl hu
      · rw [if_neg hu, utf8PctBytes] at hx
        rw [List.mem_flatten] at hx
        obtain ⟨l, hl, hxl⟩ := hx
        rw [List.mem_map] at hl
        obtain ⟨b, hb, rfl⟩ := hl
        have hb256 : b < 256 := by
          have hval : c.toNat < 0x110000 := by
            rcases char_toNat_valid c with hh | ⟨hh1, hh2⟩ <;> omega
          exact utf8ByteVals_lt_256 c.toNat hval b hb
        rw [pctByte] at hxl
        simp only [List.mem_cons, List.not_mem_nil, or_false] at hxl
        rcases hxl with rfl | rfl | rfl
        · exact Or.inr (Or.inl rfl)
        · exact Or.inr (Or.inr ⟨b / 16, by omega, rfl⟩)
        · exact Or.inr (Or.inr ⟨b % 16, by omega, rfl⟩)
    · exact ih hx

theorem comma_not_mem_encodeURIComponent (p : List Char) :
    ¬(',') ∈ encodeURIComponent p := by
  intro h
  rcases mem_encodeURIComponent p ',' h with h | h | ⟨d, hd, h⟩
  · exact absurd h (by decide)
  · exact absurd h (by decide)
  · have hall : ∀ d, d < 16 → ¬(',' = hexDigitChar d) := by decide
    exact absurd h (hall d hd)

theorem semicolon_not_mem_encodeURIComponent (p : List Char) :
    ¬(';') ∈ encodeURIComponent p := by
  intro h
  rcases mem_encodeURIComponent p ';' h with h | h | ⟨d, hd, h⟩
  · exact absurd h (by decide)
  · exact absurd h (by decide)
  · have hall : ∀ d, d < 16 → ¬(';' = hexDigitChar d) := by decide
    exact absurd h (hall d hd)

/-- JS `String.prototype.includes` with a fixed pattern. -/
def containsSub (pat : List Char) : List Char → Bool
  | [] => pat.isPrefixOf []
  | c :: cs => pat.isPrefixOf (c :: cs) || containsSub pat cs

theorem containsSub_mem {pat s : List Char} (h : containsSub pat s = true) :
    ∀ c ∈ pat, c ∈ s := by
  induction s with
  | nil =>
    rw [containsSub] at h
    intro c hc
    have : pat = [] := by
      cases pat with
      | nil => rfl
      | cons a t => exact absurd h (by simp [List.isPrefixOf])
    subst this
    exact absurd hc (by simp)
  | cons a t ih =>
    rw [containsSub, Bool.or_eq_true] at h
    intro c hc
    rcases h with h | h
    · rw [List.isPrefixOf_iff_prefix] at h
      exact h.subset hc
    · exact List.mem_cons_of_mem a (ih h c hc)

theorem containsSub_eq_false {pat s : List Char} (c : Char) (hc : c ∈ pat)
    (hs : ¬c ∈ s) : containsSub pat s = false := by
  cases h : containsSub pat s
  · rfl
  · exact absurd (containsSub_mem h c hc) hs

/-- JS `String.prototype.split` on a single-character separator. -/
def splitOnChar (sep : Char) : List Char → List (List Char)
  | [] => [[]]
  | c :: cs =>
    match splitOnChar sep cs with
    | [] => if c = sep then [[], []] else [[c]]
    | p :: ps => if c = sep then [] :: p :: ps else (c :: p) :: ps

theorem splitOnChar_ne_nil (sep : Char) (l : List Char) : splitOnChar sep l ≠ [] := by
  cases l with
  | nil => simp [splitOnChar]
  | cons c cs =>
    rw [splitOnChar]
    cases splitOnChar sep cs with
    | nil =>
      by_cases h : c = sep
      · simp [h]
      · simp [h]
    | cons p ps =>
      by_cases h : c = sep
      · simp [h]
      · simp [h]

theorem splitOnChar_not_mem (sep : Char) (l : List Char) (h : ¬sep ∈ l) :
    splitOnChar sep l = [l] := by
  induction l with
  | nil => rfl
  | cons c cs ih =>
    have hc : ¬c = sep := fun hh => h (hh ▸ List.mem_cons_self c cs)
    have hcs : ¬sep ∈ cs := fun hh => h (List.mem_cons_of_mem c hh)
    rw [splitOnChar]
    simp only [ih hcs]
    rw [if_neg hc]

theorem splitOnChar_sep_cons (sep : Char) (e : List Char) :
    splitOnChar sep (sep :: e) = [] :: splitOnChar sep e := by
  rw [splitOnChar]
  cases h : splitOnChar sep e with
  | nil => exact absurd h (splitOnChar_ne_nil sep e)
  | cons p ps =>
    simp

theorem splitOnChar_append {sep : Char} {a : List Char} (ha : ¬sep ∈ a)
    (b : List Char) {p : List Char} {ps : List (List Char)}
    (hb : splitOnChar sep b = p :: ps) :
    splitOnChar sep (a ++ b) = (a ++ p) :: ps := by
  induction a with
  | nil => simpa using hb
  | cons c a ih =>
    have hc : ¬c = sep := fun hh => ha (hh ▸ List.mem_cons_self c a)
    have ha' : ¬sep ∈ a := fun hh => ha (List.mem_cons_of_mem c hh)
    rw [List.cons_append, splitOnChar]
    simp only [ih ha']
    rw [if_neg hc, List.cons_append]

theorem splitOnChar_comma_decomp {sep : Char} {m : List Char} (hm : ¬sep ∈ m)
    (e : List Char) :
    splitOnChar sep (m ++ sep :: e) = m :: splitOnChar sep e := by
  cases h : splitOnChar sep e with
  | nil => exact absurd h (splitOnChar_ne_nil sep e)
  | cons p ps =>
    have hs : splitOnChar sep (sep :: e) = [] :: p :: ps := by
      rw [splitOnChar_sep_cons, h]
    have := splitOnChar_append hm (sep :: e) hs
    rw [this, List.append_nil]

/-- JS `Array.prototype.join` with a one-character separator. -/
def joinWith (sep : Char) : List (List Char) → List Char
  | [] => []
  | [x] => x
  | x :: y :: xs => x ++ sep :: joinWith sep (y :: xs)

theorem joinWith_splitOnChar (sep : Char) (l : List Char) :
    joinWith sep (splitOnChar sep l) = l := by
  induction l with
  | nil => rfl
  | cons c cs ih =>
    by_cases hc : c = sep
    · subst hc
      rw [splitOnChar_sep_cons]
      cases h : splitOnChar c cs with
      | nil => exact absurd h (splitOnChar_ne_nil c cs)
      | cons p ps =>
        rw [h] at ih
        rw [joinWith, List.nil_append, ih]
    · rw [splitOnChar]
      cases h : splitOnChar sep cs with
      | nil => exact absurd h (splitOnChar_ne_nil sep cs)
      | cons p ps =>
        rw [h] at ih
        simp only []
        rw [if_neg hc]
        cases ps with
        | nil =>
          rw [joinWith] at ih ⊢
          rw [ih]
        | cons q qs =>
          rw [joinWith] at ih ⊢
          rw [List.cons_append, ih]

/-- ASCII whitespace removed by forgiving-base64 decoding. -/
def isB64Ws (c : Char) : Bool :=
  c.toNat = 9 || c.toNat = 10 || c.toNat = 12 || c.toNat = 13 || c.toNat = 32

/-- Strip up to two trailing `=` characters. -/
def stripB64Pad (s : List Char) : List Char :=
  match s.reverse with
  | '=' :: '=' :: rest => rest.reverse
  | '=' :: rest => rest.reverse
  | _ => s

/-- Value of a base64 alphabet character, `none` outside the alphabet. -/
def base64Val (c : Char) : Option Nat :=
  if 65 ≤ c.toNat ∧ c.toNat ≤ 90 then some (c.toNat - 65)
  else if 97 ≤ c.toNat ∧ c.toNat ≤ 122 then some (c.toNat - 71)
  else if 48 ≤ c.toNat ∧ c.toNat ≤ 57 then some (c.toNat + 4)
  else if c = '+' then some 62
  else if c = '/' then some 63
  else none

/-- Pack six-bit values into bytes, discarding trailing bits. -/
def b64DecodeVals : List Nat → List Nat
  | v1 :: v2 :: v3 :: v4 :: rest =>
    (v1 * 4 + v2 / 16) :: ((v2 % 16) * 16 + v3 / 4) :: ((v3 % 4) * 64 + v4) ::
      b64DecodeVals rest
  | [v1, v2] => [v1 * 4 + v2 / 16]
  | [v1, v2, v3] => [v1 * 4 + v2 / 16, (v2 % 16) * 16 + v3 / 4]
  | _ => []

/-- WHATWG forgiving-base64 decode (JS `atob`): ASCII whitespace is removed;
up to two trailing `=` are stripped when the length is a multiple of four; a
remaining length of 1 mod 4, or any character outside the base64 alphabet,
throws an `InvalidCharacterError` (modelled as `Except.error ()`); otherwise
the six-bit values are packed into bytes, returned as a string of
U+0000–U+00FF characters. -/
def atob (input : List Char) : Except Unit (List Char) :=
  let s1 := input.filter (fun c => !isB64Ws c)
  let s2 := if s1.length % 4 = 0 then stripB64Pad s1 else s1
  if s2.length % 4 = 1 then .error ()
  else
    match s2.mapM base64Val with
    | none => .error ()
    | some vals => .ok ((b64DecodeVals vals).map Char.ofNat)

/-- The base64 data-URI marker tested for by the source. -/
def b64marker : List Char := ";base64,".toList

/-- `decodeDataURI` from the retrieval module.  If the string contains
`;base64,`, the text between the first and second comma is base64-decoded
(`atob` may throw here — there is no try/catch in this branch).  Otherwise
the text after the first comma (inner commas preserved by the
`slice(1).join(',')`) is percent-decoded when it contains a `%XX` escape — a
`decodeURIComponent` failure being caught and the raw text returned — or
returned as-is; a string without a comma is returned unchanged. -/
def decodeDataURI (dataURI : List Char) : Except Unit (List Char) :=
  if containsSub b64marker dataURI then
    atob ((splitOnChar ',' dataURI).getD 1 [])
  else if (splitOnChar ',' dataURI).length < 2 then .ok dataURI
  else if hasPctEsc (joinWith ',' ((splitOnChar ',' dataURI).drop 1)) then
    match decodeChars (joinWith ',' ((splitOnChar ',' dataURI).drop 1)) with
    | .ok r => .ok r
    | .error _ => .ok (joinWith ',' ((splitOnChar ',' dataURI).drop 1))
  else .ok (joinWith ',' ((splitOnChar ',' dataURI).drop 1))

/-- `ensureEncodedDataURI` from the grid component: base64 data-URIs pass
through; so do strings without a comma and data-URIs whose content past the
first comma already contains a `%XX` escape; otherwise the content is
percent-encoded and re-attached to the mime prefix. -/
def ensureEncodedDataURI (dataURI : List Char) : List Char :=
  if containsSub b64marker dataURI then dataURI
  else if (splitOnChar ',' dataURI).length < 2 then dataURI
  else if hasPctEsc (joinWith ',' ((splitOnChar ',' dataURI).drop 1)) then dataURI
  else (splitOnChar ',' dataURI).headD [] ++ [','] ++
    encodeURIComponent (joinWith ',' ((splitOnChar ',' dataURI).drop 1))


/-! ## Data model and chain interface -/

/-- A metadata attribute value: JSON string or number (`string | number` in
the TS types).  Numbers are carried opaquely; no modelled operation computes
with them. -/
inductive AttrValue where
  | str (s : List Char)
  | num (n : Int)
deriving Repr, DecidableEq

/-- One `NFTAttribute` record. -/
structure NFTAttribute where
  trait_type : List Char
  value : AttrValue
deriving Repr, DecidableEq

/-- The `NFTMetadata` record as it exists at runtime after `JSON.parse` and
the unchecked TypeScript cast: the TS interface declares `name` and `image`
required, but nothing enforces this on parsed data, so every field is an
option here. -/
structure NFTMetadata where
  name : Option (List Char) := none
  description : Option (List Char) := none
  image : Option (List Char) := none
  attributes : Option (List NFTAttribute) := none
  external_url : Option (List Char) := none
  animation_url : Option (List Char) := none
  background_color : Option (List Char) := none
deriving Repr, DecidableEq

/-- The `NFT` record assembled by the fetchers. -/
structure NFT where
  tokenId : List Char
  contractAddress : List Char
  owner : Option (List Char)
  metadata : NFTMetadata
deriving Repr, DecidableEq

/-- Outcome of the two concurrent chain reads (`tokenURI`, `ownerOf`) issued
for one token at one attempt; `none` models a rejected promise (RPC failure,
revert or timeout). -/
structure ChainView where
  tokenURIRes : Option (List Char)
  ownerOfRes : Option (List Char)
deriving Repr, DecidableEq

/-- JS `Number.prototype.toString` (radix 10) on a natural number. -/
def natToChars (n : Nat) : List Char :=
  if n = 0 then ['0'] else (Nat.digits 10 n).reverse.map Nat.digitChar

/-- `fetchNFTData`: one attempt at assembling the NFT record for one token.
Both chain reads must resolve; the token URI is decoded and parsed; any
thrown error (chain read, `atob` inside the decoder, `JSON.parse`) is caught
and `null` is returned.  The metadata is NOT validated — in particular a
missing `image` field is not checked anywhere. -/
def fetchNFTData (parse : List Char → Option NFTMetadata) (view : ChainView)
    (contractAddress : List Char) (tokenId : Nat) : Option NFT :=
  match view.tokenURIRes, view.ownerOfRes with
  | some uri, some owner =>
    match decodeDataURI uri with
    | .error _ => none
    | .ok decodedJson =>
      match parse decodedJson with
      | none => none
      | some metadata =>
        some { tokenId := natToChars tokenId, contractAddress := contractAddress,
               owner := some owner, metadata := metadata }
  | _, _ => none

/-- The retry loop of `fetchNFTDataWithRetry`.  `schedule k` is the chain
view observed by attempt `k` (attempts re-issue the reads and may observe
different outcomes).  Returns the result together with the list of backoff
waits performed, in milliseconds. -/
def retryLoop (parse : List Char → Option NFTMetadata) (schedule : Nat → ChainView)
    (contractAddress : List Char) (tokenId : Nat) (maxRetries attempt : Nat)
    (waits : List Nat) : Option NFT × List Nat :=
  if h : attempt ≤ maxRetries then
    match fetchNFTData parse (schedule attempt) contractAddress tokenId with
    | some nft => (some nft, waits)
    | none =>
      if attempt < maxRetries then
        retryLoop parse schedule contractAddress tokenId maxRetries (attempt + 1)
          (waits ++ [1000 * attempt])
      else
        retryLoop parse schedule contractAddress tokenId maxRetries (attempt + 1) waits
  else (none, waits)
termination_by maxRetries + 1 - attempt
decreasing_by all_goals omega

/-- `fetchNFTDataWithRetry`: run the attempts loop starting at attempt 1
with no waits performed yet; after exhausting the budget the result is
`none` (never a thrown error). -/
def fetchNFTDataWithRetry (parse : List Char → Option NFTMetadata)
    (schedule : Nat → ChainView) (contractAddress : List Char)
    (tokenId maxRetries : Nat) : Option NFT × List Nat :=
  retryLoop parse schedule contractAddress tokenId maxRetries 1 []

/-- Observable outcome of one `getNFTsFromContract` run: the aggregated
records, the `(current, total)` arguments of every `onProgress` invocation
in order, the final processed count, and the token ids passed to
`fetchNFTDataWithRetry` (the scanned indices) in order. -/
structure FetchRun where
  nfts : List NFT
  progress : List (Nat × Nat)
  processed : Nat
  scanned : List Nat
deriving Repr, DecidableEq

/-- The state before any batch. -/
def emptyRun : FetchRun := { nfts := [], progress := [], processed := 0, scanned := [] }

/-- One step of the `batchResults.forEach` loop: increment `processedCount`,
push the record when the settled result is fulfilled and non-null, and call
`onProgress(processedCount, totalTokens)`. -/
def settleResult (totalTokens : Nat) (st : FetchRun) (r : Option NFT) : FetchRun :=
  { st with
    processed := st.processed + 1
    nfts := st.nfts ++ (match r with | some nft => [nft] | none => [])
    progress := st.progress ++ [(st.processed + 1, totalTokens)] }

/-- The batch loop `for (let i = 0; i < totalTokens; i += batchSize)` of
`getNFTsFromContract` with `batchSize = 5`: each batch covers indices
`i .. min (i+5) totalTokens - 1`, its settled results are processed in
order, and the next batch starts only afterwards. -/
def runBatches (parse : List Char → Option NFTMetadata)
    (schedule : Nat → Nat → ChainView) (contractAddress : List Char)
    (totalTokens i : Nat) (st : FetchRun) : FetchRun :=
  if h : i < totalTokens then
    let e := min (i + 5) totalTokens
    let idxs := List.range' i (e - i)
    let results := idxs.map fun j =>
      (fetchNFTDataWithRetry parse (schedule j) contractAddress j 3).fst
    let st1 := results.foldl (settleResult totalTokens) st
    runBatches parse schedule contractAddress totalTokens e
      { st1 with scanned := st1.scanned ++ idxs }
  else st
termination_by totalTokens - i
decreasing_by omega

/-- `getNFTsFromContract`: read `totalSupply` (given here as `supply`), cap
the scan at 30 tokens, return immediately when there is nothing to scan,
else run the batch loop.  `schedule j k` is the chain view observed by
attempt `k` for token `j`. -/
def getNFTsFromContract (parse : List Char → Option NFTMetadata) (supply : Nat)
    (schedule : Nat → Nat → ChainView) (contractAddress : List Char) : FetchRun :=
  let totalTokens := min supply 30
  if totalTokens = 0 then emptyRun
  else runBatches parse schedule contractAddress totalTokens 0 emptyRun

/-- `getNFTById`: the single definite lookup.  One chain view, one decode,
one parse — any failure is rethrown to the caller (`Except.error`), there is
no retry and no backoff. -/
def getNFTById (parse : List Char → Option NFTMetadata) (view : ChainView)
    (contractAddress tokenId : List Char) : Except Unit NFT :=
  match view.tokenURIRes, view.ownerOfRes with
  | some uri, some owner =>
    match decodeDataURI uri with
    | .error e => .error e
    | .ok decodedJson =>
      match parse decodedJson with
      | none => .error ()
      | some metadata =>
        .ok { tokenId := tokenId, contractAddress := contractAddress,
              owner := some owner, metadata := metadata }
  | _, _ => .error ()


/-! ## Pipeline lemmas -/

theorem fetchNFTData_some {parse : List Char → Option NFTMetadata} {view : ChainView}
    {addr : List Char} {t : Nat} {nft : NFT}
    (h : fetchNFTData parse view addr t = some nft) :
    nft.tokenId = natToChars t ∧ nft.contractAddress = addr := by
  unfold fetchNFTData at h
  split at h
  · split at h
    · exact absurd h (by simp)
    · split at h
      · exact absurd h (by simp)
      · obtain rfl := (Option.some.injEq _ _ ▸ h).symm
        exact ⟨rfl, rfl⟩
  · exact absurd h (by simp)

theorem retryLoop_some_shape (parse : List Char → Option NFTMetadata)
    (schedule : Nat → ChainView) (addr : List Char) (t maxRetries : Nat) {nft : NFT} :
    ∀ (n attempt : Nat) (waits : List Nat), maxRetries + 1 - attempt ≤ n →
      (retryLoop parse schedule addr t maxRetries attempt waits).fst = some nft →
      nft.tokenId = natToChars t ∧ nft.contractAddress = addr := by
  intro n
  induction n with
  | zero =>
    intro attempt waits hle h
    rw [retryLoop.eq_def, dif_neg (by omega)] at h
    exact absurd h (by simp)
  | succ n ih =>
    intro attempt waits hle h
    rw [retryLoop.eq_def] at h
    by_cases hle2 : attempt ≤ maxRetries
    · rw [dif_pos hle2] at h
      cases hf : fetchNFTData parse (schedule attempt) addr t with
      | some nft2 =>
        simp only [hf] at h
        obtain rfl : nft2 = nft := by simpa using h
        exact fetchNFTData_some hf
      | none =>
        simp only [hf] at h
        by_cases hlt : attempt < maxRetries
        · rw [if_pos hlt] at h
          exact ih _ _ (by omega) h
        · rw [if_neg hlt] at h
          exact ih _ _ (by omega) h
    · rw [dif_neg hle2] at h
      exact absurd h (by simp)

theorem fetchNFTDataWithRetry_some_shape {parse : List Char → Option NFTMetadata}
    {schedule : Nat → ChainView} {addr : List Char} {t : Nat} {nft : NFT}
    (h : (fetchNFTDataWithRetry parse schedule addr t 3).fst = some nft) :
    nft.tokenId = natToChars t ∧ nft.contractAddress = addr :=
  retryLoop_some_shape parse schedule addr t 3 3 1 [] (by omega) h

theorem settleResult_nfts (t : Nat) (st : FetchRun) (r : Option NFT) :
    (settleResult t st r).nfts =
      st.nfts ++ (match r with | some nft => [nft] | none => []) := rfl

theorem settleResult_progress (t : Nat) (st : FetchRun) (r : Option NFT) :
    (settleResult t st r).progress = st.progress ++ [(st.processed + 1, t)] := rfl

theorem settleResult_processed (t : Nat) (st : FetchRun) (r : Option NFT) :
    (settleResult t st r).processed = st.processed + 1 := rfl

theorem settleResult_scanned (t : Nat) (st : FetchRun) (r : Option NFT) :
    (settleResult t st r).scanned = st.scanned := rfl

theorem foldl_settle (t : Nat) (rs : List (Option NFT)) : ∀ st : FetchRun,
    rs.foldl (settleResult t) st =
      { nfts := st.nfts ++ rs.filterMap id
        progress := st.progress ++ (List.range' (st.processed + 1) rs.length).map
          (fun k => (k, t))
        processed := st.processed + rs.length
        scanned := st.scanned } := by
  induction rs with
  | nil =>
    intro st
    simp [List.range']
  | cons r rs ih =>
    intro st
    rw [List.foldl_cons, ih (settleResult t st r)]
    simp only [settleResult_nfts, settleResult_progress, settleResult_processed,
      settleResult_scanned, List.length_cons, FetchRun.mk.injEq]
    refine ⟨?_, ?_, ?_, trivial⟩
    · cases r <;> simp [List.filterMap_cons]
    · simp [List.range'_succ, List.append_assoc]
    · omega

theorem range'_split_len (s a b : Nat) :
    List.range' s (a + b) = List.range' s a ++ List.range' (s + a) b := by
  have h := List.range'_append s a b 1
  rw [Nat.one_mul] at h
  rw [Nat.add_comm b a] at h
  exact h.symm

theorem range'_split (i e t : Nat) (h1 : i ≤ e) (h2 : e ≤ t) :
    List.range' i (t - i) = List.range' i (e - i) ++ List.range' e (t - e) := by
  have h := range'_split_len i (e - i) (t - e)
  rw [show i + (e - i) = e by omega] at h
  rw [show e - i + (t - e) = t - i by omega] at h
  exact h

theorem runBatches_spec (parse : List Char → Option NFTMetadata)
    (schedule : Nat → Nat → ChainView) (addr : List Char) (t : Nat) :
    ∀ (n i : Nat) (st : FetchRun), t - i ≤ n →
      runBatches parse schedule addr t i st =
        { nfts := st.nfts ++ ((List.range' i (t - i)).map fun j =>
            (fetchNFTDataWithRetry parse (schedule j) addr j 3).fst).filterMap id
          progress := st.progress ++ (List.range' (st.processed + 1) (t - i)).map
            (fun k => (k, t))
          processed := st.processed + (t - i)
          scanned := st.scanned ++ List.range' i (t - i) } := by
  intro n
  induction n with
  | zero =>
    intro i st hle
    have hti : t - i = 0 := by omega
    rw [runBatches.eq_def, dif_neg (by omega), hti]
    simp [List.range']
  | succ n ih =>
    intro i st hle
    by_cases hit : i < t
    · have hie : i ≤ min (i + 5) t := by omega
      have het : min (i + 5) t ≤ t := by omega
      rw [runBatches.eq_def, dif_pos hit]
      simp only [foldl_settle]
      rw [ih (min (i + 5) t) _ (by omega)]
      simp only [FetchRun.mk.injEq, List.length_map, List.length_range']
      refine ⟨?_, ?_, ?_, ?_⟩
      · rw [range'_split i (min (i + 5) t) t hie het]
        simp [List.append_assoc]
      · rw [show t - i = (min (i + 5) t - i) + (t - min (i + 5) t) by omega,
          range'_split_len (st.processed + 1) (min (i + 5) t - i) (t - min (i + 5) t),
          show st.processed + 1 + (min (i + 5) t - i)
            = st.processed + (min (i + 5) t - i) + 1 by omega]
        simp [List.append_assoc]
      · omega
      · rw [range'_split i (min (i + 5) t) t hie het]
        simp [List.append_assoc]
    · have hti : t - i = 0 := by omega
      rw [runBatches.eq_def, dif_neg hit, hti]
      simp [List.range']

theorem getNFTsFromContract_spec (parse : List Char → Option NFTMetadata)
    (supply : Nat) (schedule : Nat → Nat → ChainView) (addr : List Char) :
    getNFTsFromContract parse supply schedule addr =
      { nfts := ((List.range (min supply 30)).map fun j =>
          (fetchNFTDataWithRetry parse (schedule j) addr j 3).fst).filterMap id
        progress := (List.range' 1 (min supply 30)).map (fun k => (k, min supply 30))
        processed := min supply 30
        scanned := List.range (min supply 30) } := by
  simp only [getNFTsFromContract]
  by_cases h : min supply 30 = 0
  · rw [if_pos h, h]
    simp [emptyRun, List.range']
  · rw [if_neg h]
    rw [runBatches_spec parse schedule addr (min supply 30) (min supply 30) 0 emptyRun
      (by omega)]
    simp [emptyRun, List.range_eq_range']

/-! ## Behaviour of the decoder on decomposed inputs -/

theorem splitOnChar_length_pos (sep : Char) (l : List Char) :
    1 ≤ (splitOnChar sep l).length :=
  List.length_pos.mpr (splitOnChar_ne_nil sep l)

/-- The decoder on a string with a first comma: everything before it is
dropped, everything after it is kept (inner commas restored) and
percent-decoded when an escape is present. -/
theorem decodeDataURI_decomp {m e : List Char}
    (hb : containsSub b64marker (m ++ ',' :: e) = false) (hm : ¬(',') ∈ m) :
    decodeDataURI (m ++ ',' :: e) =
      if hasPctEsc e then
        match decodeChars e with
        | .ok r => .ok r
        | .error _ => .ok e
      else .ok e := by
  rw [decodeDataURI, if_neg (by simp [hb]), splitOnChar_comma_decomp hm]
  rw [if_neg (by
    have := splitOnChar_length_pos ',' e
    simp only [List.length_cons]
    omega)]
  rw [show (m :: splitOnChar ',' e).drop 1 = splitOnChar ',' e from rfl,
    joinWith_splitOnChar]

/-- The decoder returns a comma-free string unchanged. -/
theorem decodeDataURI_no_comma {s : List Char} (h : ¬(',') ∈ s) :
    decodeDataURI s = .ok s := by
  have hb : containsSub b64marker s = false := containsSub_eq_false ',' (by decide) h
  rw [decodeDataURI, if_neg (by simp [hb]), splitOnChar_not_mem ',' s h,
    if_pos (by simp)]

/-- The ensure-encoded transform on a data-URI whose content shows no
escape: the content is percent-encoded and re-attached. -/
theorem ensureEncodedDataURI_encodes {m p : List Char}
    (hb : containsSub b64marker (m ++ ',' :: p) = false) (hm : ¬(',') ∈ m)
    (hp : hasPctEsc p = false) :
    ensureEncodedDataURI (m ++ ',' :: p) = m ++ [','] ++ encodeURIComponent p := by
  rw [ensureEncodedDataURI, if_neg (by simp [hb]), splitOnChar_comma_decomp hm]
  rw [if_neg (by
    have := splitOnChar_length_pos ',' p
    simp only [List.length_cons]
    omega)]
  rw [show (m :: splitOnChar ',' p).drop 1 = splitOnChar ',' p from rfl,
    joinWith_splitOnChar, if_neg (by simp [hp])]
  rfl

/-! ## Decimal token-id strings -/

theorem digitChar_inj_lt10 : ∀ a, a < 10 → ∀ b, b < 10 →
    Nat.digitChar a = Nat.digitChar b → a = b := by decide

theorem map_digitChar_inj : ∀ l1 l2 : List Nat, (∀ x ∈ l1, x < 10) →
    (∀ x ∈ l2, x < 10) → l1.map Nat.digitChar = l2.map Nat.digitChar → l1 = l2 := by
  intro l1
  induction l1 with
  | nil =>
    intro l2 _ _ h
    cases l2 with
    | nil => rfl
    | cons b t => exact absurd h (by simp)
  | cons a t ih =>
    intro l2 h1 h2 h
    cases l2 with
    | nil => exact absurd h (by simp)
    | cons b t2 =>
      simp only [List.map_cons, List.cons.injEq] at h
      obtain ⟨hab, hrest⟩ := h
      have ha : a < 10 := h1 a (List.mem_cons_self a t)
      have hb : b < 10 := h2 b (List.mem_cons_self b t2)
      rw [digitChar_inj_lt10 a ha b hb hab,
        ih t2 (fun x hx => h1 x (List.mem_cons_of_mem a hx))
          (fun x hx => h2 x (List.mem_cons_of_mem b hx)) hrest]

theorem digits_bound (n : Nat) : ∀ x ∈ (Nat.digits 10 n).reverse, x < 10 := by
  intro x hx
  rw [List.mem_reverse] at hx
  exact Nat.digits_lt_base (by norm_num) hx

theorem natToChars_zero_aux {b : Nat} (hb : ¬b = 0)
    (h : ['0'] = (Nat.digits 10 b).reverse.map Nat.digitChar) : False := by
  have hlen := congrArg List.length h
  simp only [List.length_singleton, List.length_map, List.length_reverse] at hlen
  obtain ⟨d, hd⟩ := List.length_eq_one.mp hlen.symm
  rw [hd] at h
  simp only [List.reverse_singleton, List.map_cons, List.map_nil,
    List.cons.injEq, and_true] at h
  have hd10 : d < 10 := by
    have : d ∈ Nat.digits 10 b := by rw [hd]; exact List.mem_cons_self d []
    exact Nat.digits_lt_base (by norm_num) this
  have hd0 : d = 0 := by
    refine digitChar_inj_lt10 d hd10 0 (by norm_num) ?_
    rw [← h]
    rfl
  have := Nat.ofDigits_digits 10 b
  rw [hd, hd0] at this
  simp [Nat.ofDigits] at this
  exact hb this.symm

/-- Distinct token ids have distinct decimal strings. -/
theorem natToChars_injective : Function.Injective natToChars := by
  intro a b h
  rw [natToChars, natToChars] at h
  by_cases ha : a = 0 <;> by_cases hb : b = 0
  · rw [ha, hb]
  · rw [if_pos ha, if_neg hb] at h
    exact absurd h (fun hh => natToChars_zero_aux hb hh)
  · rw [if_neg ha, if_pos hb] at h
    exact absurd h.symm (fun hh => natToChars_zero_aux ha hh)
  · rw [if_neg ha, if_neg hb] at h
    have hrev := map_digitChar_inj _ _ (digits_bound a) (digits_bound b) h
    have hdig := List.reverse_injective hrev
    have := congrArg (Nat.ofDigits 10) hdig
    rw [Nat.ofDigits_digits, Nat.ofDigits_digits] at this
    exact this


/-! ## Claims about the URI decoder -/

/-- C3, amended: for every input string that is not base64-flagged (no
`;base64,` marker), `decodeDataURI` never raises: malformed percent-escapes
fall back to returning the raw text.  The claim as stated is false: in the
base64 branch, `atob` is called without any try/catch and a malformed
payload throws (see the counterexample). -/
theorem claim_c3 (s : List Char) (h : containsSub b64marker s = false) :
    ∃ r, decodeDataURI s = .ok r := by
  rw [decodeDataURI, if_neg (by simp [h])]
  by_cases h2 : (splitOnChar ',' s).length < 2
  · rw [if_pos h2]
    exact ⟨s, rfl⟩
  · rw [if_neg h2]
    by_cases h3 : hasPctEsc (joinWith ',' ((splitOnChar ',' s).drop 1)) = true
    · rw [if_pos h3]
      cases hd : decodeChars (joinWith ',' ((splitOnChar ',' s).drop 1)) with
      | ok r =>
        simp only [hd]
        exact ⟨r, rfl⟩
      | error e =>
        simp only [hd]
        exact ⟨_, rfl⟩
    · rw [if_neg h3]
      exact ⟨_, rfl⟩

/-- C3 counterexample: a malformed base64 payload after `;base64,` makes
`decodeDataURI` throw (`atob` is not wrapped in a try/catch), refuting
"never raises an exception". -/
theorem claim_c3_counterexample :
    decodeDataURI ("data:application/json;base64,###".toList) = .error () := rfl

/-- C3 witness. -/
theorem claim_c3_witness :
    containsSub b64marker ("hello".toList) = false ∧
      ∃ r, decodeDataURI ("hello".toList) = .ok r :=
  ⟨by decide, claim_c3 ("hello".toList) (by decide)⟩

/-- C4, amended: the ensure-encoded/decode round-trip reproduces the SVG
payload exactly for every payload that contains no `%XX` percent-escape and
whose data-URI is not base64-flagged.  The claim as stated (for every
payload) is false: a payload already containing an escape is passed through
by `ensureEncodedDataURI` and then percent-decoded by `decodeDataURI`, so
the round-trip returns its decoding instead (see the counterexample). -/
theorem claim_c4 (p : List Char) (hp : hasPctEsc p = false)
    (hb : containsSub b64marker ("data:image/svg+xml".toList ++ ',' :: p) = false) :
    decodeDataURI (ensureEncodedDataURI ("data:image/svg+xml".toList ++ ',' :: p))
      = .ok p := by
  have hm : ¬(',') ∈ "data:image/svg+xml".toList := by decide
  rw [ensureEncodedDataURI_encodes hb hm hp]
  rw [List.append_assoc, List.singleton_append]
  have hb2 : containsSub b64marker
      ("data:image/svg+xml".toList ++ ',' :: encodeURIComponent p) = false := by
    refine containsSub_eq_false ';' (by decide) ?_
    intro hmem
    rw [List.mem_append, List.mem_cons] at hmem
    rcases hmem with h | h | h
    · revert h; decide
    · exact absurd h (by decide)
    · exact semicolon_not_mem_encodeURIComponent p h
  rw [decodeDataURI_decomp hb2 hm]
  by_cases he : hasPctEsc (encodeURIComponent p) = true
  · rw [if_pos he]
    rw [decodeChars_encodeURIComponent]
  · rw [if_neg he]
    have hf : hasPctEsc (encodeURIComponent p) = false := by
      revert he
      cases hasPctEsc (encodeURIComponent p) <;> simp
    rw [encodeURIComponent_eq_self p hf]

/-- C4 counterexample: for the SVG data-URI payload `%41` the round-trip
returns `A`, not the original payload text, refuting the claim for every
payload. -/
theorem claim_c4_counterexample :
    decodeDataURI (ensureEncodedDataURI ("data:image/svg+xml,%41".toList))
        = .ok ("A".toList) ∧
      "A".toList ≠ "%41".toList :=
  ⟨rfl, by decide⟩

/-- C4 witness. -/
theorem claim_c4_witness :
    (hasPctEsc ("<svg xmlns=x a,b/>".toList) = false ∧
      containsSub b64marker
        ("data:image/svg+xml".toList ++ ',' :: "<svg xmlns=x a,b/>".toList) = false) ∧
    decodeDataURI (ensureEncodedDataURI
        ("data:image/svg+xml".toList ++ ',' :: "<svg xmlns=x a,b/>".toList))
      = .ok ("<svg xmlns=x a,b/>".toList) :=
  ⟨⟨by decide, by decide⟩, claim_c4 _ (by decide) (by decide)⟩

/-- C5, amended: an input string free of percent-escapes, not base64-flagged
and containing no comma is returned unchanged.  The claim as stated is
false: the decoder always drops everything up to the first comma, so an
escape-free, non-base64 string containing a comma is not returned unchanged
(see the counterexample). -/
theorem claim_c5 (s : List Char) (h1 : hasPctEsc s = false)
    (h2 : containsSub b64marker s = false) (h3 : ¬(',') ∈ s) :
    decodeDataURI s = .ok s :=
  decodeDataURI_no_comma h3

/-- C5 counterexample: an input free of percent-escapes and not
base64-flagged, but containing a comma, is not returned unchanged. -/
theorem claim_c5_counterexample :
    hasPctEsc ("data:application/json,\x7b\x7d".toList) = false ∧
    containsSub b64marker ("data:application/json,\x7b\x7d".toList) = false ∧
    decodeDataURI ("data:application/json,\x7b\x7d".toList)
      = .ok ("\x7b\x7d".toList) ∧
    ("\x7b\x7d".toList : List Char) ≠ "data:application/json,\x7b\x7d".toList :=
  ⟨rfl, rfl, rfl, by decide⟩

/-- C5 witness. -/
theorem claim_c5_witness :
    (hasPctEsc ("plain-text".toList) = false ∧
      containsSub b64marker ("plain-text".toList) = false ∧
      ¬(',') ∈ "plain-text".toList) ∧
    decodeDataURI ("plain-text".toList) = .ok ("plain-text".toList) :=
  ⟨⟨by decide, by decide, by decide⟩,
    claim_c5 _ (by decide) (by decide) (by decide)⟩

/-- C6, amended: on input that is not base64-flagged, `decodeDataURI`
returns the text past the first comma when the input contains a comma (the
text being further percent-decoded only when it contains an escape; stated
here for escape-free tails), and returns the input string itself — not the
empty string — when the input contains no comma.  The claim as stated is
false on the no-comma case (see the counterexample). -/
theorem claim_c6 :
    (∀ s : List Char, ¬(',') ∈ s → decodeDataURI s = .ok s) ∧
    (∀ m e : List Char, containsSub b64marker (m ++ ',' :: e) = false →
      ¬(',') ∈ m → hasPctEsc e = false → decodeDataURI (m ++ ',' :: e) = .ok e) := by
  constructor
  · intro s h
    exact decodeDataURI_no_comma h
  · intro m e hb hm he
    rw [decodeDataURI_decomp hb hm, if_neg (by simp [he])]

/-- C6 counterexample: a comma-free input is returned unchanged, not as the
empty string the claim predicts. -/
theorem claim_c6_counterexample :
    decodeDataURI ("hello".toList) = .ok ("hello".toList) ∧
      ("hello".toList : List Char) ≠ [] :=
  ⟨rfl, by decide⟩

/-- C6 witness. -/
theorem claim_c6_witness :
    decodeDataURI ("nocomma".toList) = .ok ("nocomma".toList) ∧
      decodeDataURI ("a".toList ++ ',' :: "b".toList) = .ok ("b".toList) :=
  ⟨claim_c6.1 _ (by decide), claim_c6.2 _ _ (by decide) (by decide) (by decide)⟩


/-! ## Claims about the single-token fetchers -/

/-- C2, amended: `fetchNFTData` performs no validation of the parsed
metadata.  Whenever both chain reads resolve, URI decoding succeeds and
`JSON.parse` succeeds, the record is assembled with the parsed metadata
unchanged — even when its `image` field is absent.  Only a JSON parse
failure (or a chain-read or decode failure) fails the attempt and triggers
retry.  The claim as stated is false: an NFT record whose metadata lacks
`image` is returned (see the counterexample). -/
theorem claim_c2 (parse : List Char → Option NFTMetadata) (view : ChainView)
    (addr : List Char) (t : Nat) (uri owner d : List Char) (md : NFTMetadata)
    (hu : view.tokenURIRes = some uri) (ho : view.ownerOfRes = some owner)
    (hd : decodeDataURI uri = .ok d) (hp : parse d = some md) :
    fetchNFTData parse view addr t =
      some { tokenId := natToChars t, contractAddress := addr,
             owner := some owner, metadata := md } := by
  unfold fetchNFTData
  simp only [hu, ho, hd, hp]

/-- Behaviour of `JSON.parse` (plus the unchecked cast) at the concrete
decoded text `{"name":"Test"}`: an object with `name` set and no `image`. -/
def parseC2 : List Char → Option NFTMetadata := fun s =>
  if s = "\x7b\"name\":\"Test\"\x7d".toList then
    some { name := some ("Test".toList) }
  else none

/-- A chain view whose `tokenURI` read yields a plain JSON data-URI whose
metadata has no `image` field, and whose `ownerOf` read succeeds. -/
def viewC2 : ChainView :=
  { tokenURIRes := some ("data:application/json,\x7b\"name\":\"Test\"\x7d".toList)
    ownerOfRes := some ("0xabc".toList) }

/-- C2 counterexample: the single-token fetcher returns a record whose
metadata lacks `image` instead of treating the attempt as a failure. -/
theorem claim_c2_counterexample :
    (fetchNFTData parseC2 viewC2 ("0xc".toList) 0).isSome = true ∧
      (fetchNFTData parseC2 viewC2 ("0xc".toList) 0).map (fun nft => nft.metadata.image)
        = some none :=
  ⟨rfl, rfl⟩

/-- C2 witness. -/
theorem claim_c2_witness :
    decodeDataURI ("data:application/json,\x7b\"name\":\"Test\"\x7d".toList)
        = .ok ("\x7b\"name\":\"Test\"\x7d".toList) ∧
      fetchNFTData parseC2 viewC2 ("0xc".toList) 0
        = some { tokenId := natToChars 0, contractAddress := "0xc".toList,
                 owner := some ("0xabc".toList),
                 metadata := { name := some ("Test".toList) } } :=
  ⟨rfl, claim_c2 parseC2 viewC2 ("0xc".toList) 0 _ _ _ _ rfl rfl rfl rfl⟩

/-- C9: when every attempt of the default retry budget (3) fails, the retry
wrapper returns a "no result" outcome — the total function returns
`(none, _)`, never a thrown error, so a failed token cannot abort sibling
fetches in its batch — and the backoff waits performed are 1000 ms after
attempt 1 and 2000 ms after attempt 2 (attempt k is followed by k × 1000 ms;
no wait follows the final attempt). -/
theorem claim_c9 (parse : List Char → Option NFTMetadata) (schedule : Nat → ChainView)
    (addr : List Char) (t : Nat)
    (h : ∀ k, 1 ≤ k → k ≤ 3 → fetchNFTData parse (schedule k) addr t = none) :
    fetchNFTDataWithRetry parse schedule addr t 3 = (none, [1000, 2000]) := by
  rw [fetchNFTDataWithRetry]
  rw [retryLoop.eq_def, dif_pos (by omega)]
  simp only [h 1 (by omega) (by omega)]
  rw [if_pos (by omega)]
  rw [retryLoop.eq_def, dif_pos (by omega)]
  simp only [h 2 (by omega) (by omega)]
  rw [if_pos (by omega)]
  rw [retryLoop.eq_def, dif_pos (by omega)]
  simp only [h 3 (by omega) (by omega)]
  rw [if_neg (by omega)]
  rw [retryLoop.eq_def, dif_neg (by omega)]
  rfl

/-- Semantics of `JSON.parse` in a run where nothing parses. -/
def parseFail : List Char → Option NFTMetadata := fun _ => none

/-- A chain view in which both reads reject. -/
def viewFail : ChainView := { tokenURIRes := none, ownerOfRes := none }

/-- C9 witness. -/
theorem claim_c9_witness :
    (∀ k, 1 ≤ k → k ≤ 3 →
      fetchNFTData parseFail ((fun _ => viewFail) k) ("a".toList) 0 = none) ∧
      fetchNFTDataWithRetry parseFail (fun _ => viewFail) ("a".toList) 0 3
        = (none, [1000, 2000]) :=
  ⟨fun _ _ _ => rfl,
    claim_c9 parseFail (fun _ => viewFail) ("a".toList) 0 (fun _ _ _ => rfl)⟩

/-- C10: the single definite lookup applies no retry policy at all.
`getNFTById` consumes exactly one chain view (one attempt, no backoff wait
in its type or body) and, with that view, returns `Except.ok` exactly when a
single `fetchNFTData` attempt would succeed; a failure of any step — the
`tokenURI` read, the `ownerOf` read, URI decoding, or JSON parsing —
immediately propagates as a thrown hard error (`Except.error`), with no
second attempt, unlike the batch path's 3-attempt retry. -/
theorem claim_c10 (parse : List Char → Option NFTMetadata) (view : ChainView)
    (addr : List Char) (t : Nat) :
    getNFTById parse view addr (natToChars t) =
      match fetchNFTData parse view addr t with
      | some nft => .ok nft
      | none => .error () := by
  unfold getNFTById fetchNFTData
  cases hu : view.tokenURIRes with
  | none => simp
  | some uri =>
    cases ho : view.ownerOfRes with
    | none => simp
    | some owner =>
      simp only []
      cases hd : decodeDataURI uri with
      | error e => simp [hd]
      | ok d =>
        cases hp : parse d <;> simp [hd, hp]


/-! ## Claims about the collection fetcher -/

/-- C1, amended: for a collection of 7 scanned tokens with batch size 5 the
progress callback is invoked once per settled token — seven times in total,
with `(current, total)` arguments (1,7), (2,7), …, (7,7) in that order —
regardless of which individual token fetches succeed or fail.  Each batch's
invocations happen only after the whole batch has settled
(`Promise.allSettled` precedes the `forEach` that reports progress), but
inside the `forEach` the callback fires per token, not once per batch, so
the claim as stated (exactly twice, with (5,7) then (7,7)) is false — see
the counterexample. -/
theorem claim_c1 (parse : List Char → Option NFTMetadata)
    (schedule : Nat → Nat → ChainView) (addr : List Char) :
    (getNFTsFromContract parse 7 schedule addr).progress
      = [(1, 7), (2, 7), (3, 7), (4, 7), (5, 7), (6, 7), (7, 7)] := by
  rw [getNFTsFromContract_spec]
  rfl

/-- C1 counterexample: with 7 scanned tokens the progress callback fires
seven times, not twice, and its argument trace is not
`[(5, 7), (7, 7)]`. -/
theorem claim_c1_counterexample :
    (getNFTsFromContract parseFail 7 (fun _ _ => viewFail) ("c".toList)).progress.length
        = 7 ∧
      (getNFTsFromContract parseFail 7 (fun _ _ => viewFail) ("c".toList)).progress
        ≠ [(5, 7), (7, 7)] := by
  refine ⟨?_, ?_⟩
  · rw [getNFTsFromContract_spec]
    rfl
  · rw [getNFTsFromContract_spec]
    decide

/-- C7: the collection fetcher scans exactly the indices
`0 .. min(totalSupply, 30) - 1` for every `totalSupply` and every schedule
of chain outcomes; in particular a supply of 0 yields the empty run (no
records, zero progress callbacks) and a supply of 45 scans exactly the
indices 0–29 with at most 30 records returned. -/
theorem claim_c7 (parse : List Char → Option NFTMetadata)
    (schedule : Nat → Nat → ChainView) (addr : List Char) (supply : Nat) :
    (getNFTsFromContract parse supply schedule addr).scanned
        = List.range (min supply 30) ∧
      getNFTsFromContract parse 0 schedule addr = emptyRun ∧
      (getNFTsFromContract parse 45 schedule addr).scanned = List.range 30 ∧
      (getNFTsFromContract parse 45 schedule addr).nfts.length ≤ 30 := by
  refine ⟨?_, rfl, ?_, ?_⟩
  · rw [getNFTsFromContract_spec]
  · rw [getNFTsFromContract_spec]
    rfl
  · rw [getNFTsFromContract_spec]
    exact le_trans (List.length_filterMap_le _ _) (by simp)

theorem filterMap_id_map {α β : Type} (g : α → Option β) (l : List α) :
    (l.map g).filterMap id = l.filterMap g := by
  induction l with
  | nil => rfl
  | cons a l ih => rw [List.map_cons, List.filterMap_cons, List.filterMap_cons]
                   cases g a <;> simp [ih]

theorem map_filterMap_own {α β γ : Type} (f : α → Option β) (m : β → γ) (l : List α) :
    (l.filterMap f).map m = l.filterMap fun a => (f a).map m := by
  induction l with
  | nil => rfl
  | cons a l ih =>
    rw [List.filterMap_cons, List.filterMap_cons]
    cases f a <;> simp [ih]

theorem filterMap_sublist_map {α β : Type} (f : α → Option β) (m : α → β)
    (l : List α) (h : ∀ a ∈ l, ∀ b, f a = some b → b = m a) :
    List.Sublist (l.filterMap f) (l.map m) := by
  induction l with
  | nil => exact List.nil_sublist _
  | cons a l ih =>
    have hl : ∀ x ∈ l, ∀ b, f x = some b → b = m x :=
      fun x hx => h x (List.mem_cons_of_mem a hx)
    rw [List.filterMap_cons, List.map_cons]
    cases hf : f a with
    | none => exact (ih hl).cons (m a)
    | some b =>
      rw [h a (List.mem_cons_self a l) b hf]
      exact (ih hl).cons₂ (m a)

theorem countP_eq_le_one_of_nodup {α : Type} [DecidableEq α] (l : List α)
    (hl : l.Nodup) (t : α) : l.countP (fun a => decide (a = t)) ≤ 1 := by
  induction l with
  | nil => simp
  | cons a l ih =>
    rw [List.nodup_cons] at hl
    rw [List.countP_cons]
    by_cases ha : a = t
    · subst ha
      have hz : l.countP (fun x => decide (x = a)) = 0 := by
        rw [List.countP_eq_zero]
        intro x hx
        simp only [decide_eq_true_eq]
        intro hxa
        exact hl.1 (hxa ▸ hx)
      simp [hz]
    · have hif : (if decide (a = t) = true then 1 else 0) = 0 := by
        simp [ha]
      rw [hif]
      have := ih hl.2
      omega

/-- C8: uniqueness and order of the collection fetcher's result, for every
supply and schedule of chain outcomes.  The result is exactly the
order-preserving filter of the per-index retry outcomes over the scanned
range (relative order of token indices preserved); every returned record
carries `tokenId = t.toString()` for some scanned index `t`; no token id
string occurs twice; and no record carries the id of an index outside the
scanned range. -/
theorem claim_c8 (parse : List Char → Option NFTMetadata)
    (schedule : Nat → Nat → ChainView) (addr : List Char) (supply : Nat) :
    (getNFTsFromContract parse supply schedule addr).nfts
        = ((List.range (min supply 30)).map fun j =>
            (fetchNFTDataWithRetry parse (schedule j) addr j 3).fst).filterMap id ∧
      (∀ nft ∈ (getNFTsFromContract parse supply schedule addr).nfts,
        ∃ t, t < min supply 30 ∧ nft.tokenId = natToChars t) ∧
      (∀ t : Nat, (getNFTsFromContract parse supply schedule addr).nfts.countP
        (fun nft => decide (nft.tokenId = natToChars t)) ≤ 1) ∧
      (∀ t : Nat, min supply 30 ≤ t →
        ∀ nft ∈ (getNFTsFromContract parse supply schedule addr).nfts,
          ¬nft.tokenId = natToChars t) := by
  have hmem : ∀ nft ∈ (getNFTsFromContract parse supply schedule addr).nfts,
      ∃ t, t < min supply 30 ∧ nft.tokenId = natToChars t := by
    intro nft hnft
    rw [getNFTsFromContract_spec] at hnft
    simp only [filterMap_id_map, List.mem_filterMap, List.mem_range] at hnft
    obtain ⟨j, hj, hfj⟩ := hnft
    exact ⟨j, hj, (fetchNFTDataWithRetry_some_shape hfj).1⟩
  refine ⟨?_, hmem, ?_, ?_⟩
  · rw [getNFTsFromContract_spec]
  · intro t
    rw [getNFTsFromContract_spec]
    simp only [filterMap_id_map]
    have hsub : List.Sublist
        (((List.range (min supply 30)).filterMap fun j =>
          (fetchNFTDataWithRetry parse (schedule j) addr j 3).fst).map
            (fun nft => nft.tokenId))
        ((List.range (min supply 30)).map natToChars) := by
      rw [map_filterMap_own]
      refine filterMap_sublist_map _ _ _ ?_
      intro j _ b hb
      cases hf : (fetchNFTDataWithRetry parse (schedule j) addr j 3).fst with
      | none => rw [hf] at hb; exact absurd hb (by simp)
      | some nft =>
        rw [hf] at hb
        have hb2 : nft.tokenId = b := by simpa using hb
        rw [← hb2]
        exact (fetchNFTDataWithRetry_some_shape hf).1
    have step1 : ((List.range (min supply 30)).filterMap fun j =>
          (fetchNFTDataWithRetry parse (schedule j) addr j 3).fst).countP
            (fun nft => decide (nft.tokenId = natToChars t))
        = (((List.range (min supply 30)).filterMap fun j =>
            (fetchNFTDataWithRetry parse (schedule j) addr j 3).fst).map
              (fun nft => nft.tokenId)).countP (fun s => decide (s = natToChars t)) := by
      rw [List.countP_map]
      rfl
    have step2 := hsub.countP_le (fun s => decide (s = natToChars t))
    have step3 : ((List.range (min supply 30)).map natToChars).countP
          (fun s => decide (s = natToChars t))
        = (List.range (min supply 30)).countP (fun j => decide (j = t)) := by
      rw [List.countP_map]
      refine List.countP_congr ?_
      intro j _
      show decide (natToChars j = natToChars t) = true ↔ decide (j = t) = true
      simp only [decide_eq_true_eq]
      exact ⟨fun h => natToChars_injective h, fun h => h ▸ rfl⟩
    have step4 : (List.range (min supply 30)).countP (fun j => decide (j = t)) ≤ 1 :=
      countP_eq_le_one_of_nodup _ (List.nodup_range _) t
    omega
  · intro t ht nft hnft hcontra
    obtain ⟨j, hj, hid⟩ := hmem nft hnft
    have : j = t := natToChars_injective (hid ▸ hcontra)
    omega


end NFTMarket
